import Mathlib

/-!
Shallow embedding of the PINVIT (preconditioned inverse iteration) driver from
the notebook `docs/src/notebooks/Vectors and Matrices.ipynb`.

Vectors of dimension `n` are modelled as `Fin n → K`, the PETSc `Mat` operators
as `Matrix (Fin n) (Fin n) K`, and PETSc's `x.dot(y)` for real vectors as
`Matrix.dotProduct`.  The scalar field is an arbitrary linear ordered field,
modelling exact real arithmetic; the concrete instances in the witnesses use `ℚ`.

The dense 2×2 generalized eigensolver (`scipy.linalg.eigh`) is an external
library; it enters the embedding as a function parameter `eigh`, and its
documented contract (columns are eigenvectors of the pencil, eigenvalues in
ascending order, `b`-orthonormal columns) is the predicate `IsEighResult`.
-/

open Matrix

/-- The first `stepChoice` of the notebook: the constant-coefficient selector,
`def stepChoice(Asc,Msc,w,u0): return (0.5,0.5)`. -/
def stepChoiceConst {K : Type*} [LinearOrderedField K] {n : ℕ} :
    Matrix (Fin n) (Fin n) K → Matrix (Fin n) (Fin n) K →
    (Fin n → K) → (Fin n → K) → K × K :=
  fun _Asc _Msc _w _u0 => (1 / 2, 1 / 2)

/-- The 2×2 matrix `[[u0·Bu0, u0·Bw], [w·Bu0, w·Bw]]` built by the notebook's
Rayleigh–Ritz `stepChoice` (`smallA` with `B := Asc`, `smallM` with `B := Msc`). -/
def smallOf {K : Type*} [LinearOrderedField K] {n : ℕ}
    (B : Matrix (Fin n) (Fin n) K) (u0 w : Fin n → K) : Matrix (Fin 2) (Fin 2) K :=
  !![u0 ⬝ᵥ B *ᵥ u0, u0 ⬝ᵥ B *ᵥ w; w ⬝ᵥ B *ᵥ u0, w ⬝ᵥ B *ᵥ w]

/-- The second `stepChoice` of the notebook (Rayleigh–Ritz): build `smallA` and
`smallM` from the four matrix-vector products and eight dot products, call the
dense generalized eigensolver, and return `(evec[0,0], evec[1,0])` — the two
components of the first column of the eigenvector matrix.  `eigh a b` models
`scipy.linalg.eigh(a=a, b=b)`, returning the pair (eigenvalues, eigenvectors). -/
def stepChoiceRR {K : Type*} [LinearOrderedField K] {n : ℕ}
    (eigh : Matrix (Fin 2) (Fin 2) K → Matrix (Fin 2) (Fin 2) K →
      (Fin 2 → K) × Matrix (Fin 2) (Fin 2) K)
    (Asc Msc : Matrix (Fin n) (Fin n) K) (w u0 : Fin n → K) : K × K :=
  let evec := (eigh (smallOf Asc u0 w) (smallOf Msc u0 w)).2
  (evec 0 0, evec 1 0)

/-- The Rayleigh quotient computed at the top of each driver pass:
`rho = Au0.dot(u0)/Mu0.dot(u0)`. -/
def passRho {K : Type*} [LinearOrderedField K] {n : ℕ}
    (A M : Matrix (Fin n) (Fin n) K) (u0 : Fin n → K) : K :=
  (A *ᵥ u0) ⬝ᵥ u0 / (M *ᵥ u0) ⬝ᵥ u0

/-- The search direction computed in each driver pass:
`u = Au0+rho*Mu0; pc.apply(u,w)`, i.e. `w = P·(A·u0 + ρ·M·u0)`.
Note the `+` sign, exactly as in the notebook code. -/
def passW {K : Type*} [LinearOrderedField K] {n : ℕ}
    (A M P : Matrix (Fin n) (Fin n) K) (u0 : Fin n → K) : Fin n → K :=
  P *ᵥ (A *ᵥ u0 + passRho A M u0 • (M *ᵥ u0))

/-- One pass of the driver loop: compute `w`, query the step selector
(`alpha = stepChoice(A.mat,M.mat,w,u0)`), and update
`u0 = alpha[0]*u0+alpha[1]*w`. -/
def passNext {K : Type*} [LinearOrderedField K] {n : ℕ}
    (A M P : Matrix (Fin n) (Fin n) K)
    (sel : Matrix (Fin n) (Fin n) K → Matrix (Fin n) (Fin n) K →
      (Fin n → K) → (Fin n → K) → K × K)
    (u0 : Fin n → K) : Fin n → K :=
  let w := passW A M P u0
  let alpha := sel A M w u0
  alpha.1 • u0 + alpha.2 • w

/-- The iterate of the driver after `k` passes, starting from `u0`. -/
def iterVec {K : Type*} [LinearOrderedField K] {n : ℕ}
    (A M P : Matrix (Fin n) (Fin n) K)
    (sel : Matrix (Fin n) (Fin n) K → Matrix (Fin n) (Fin n) K →
      (Fin n → K) → (Fin n → K) → K × K)
    (u0 : Fin n → K) : ℕ → Fin n → K
  | 0 => u0
  | k + 1 => passNext A M P sel (iterVec A M P sel u0 k)

/-- The Rayleigh quotient computed at the top of pass `k`. -/
def rhoSeq {K : Type*} [LinearOrderedField K] {n : ℕ}
    (A M P : Matrix (Fin n) (Fin n) K)
    (sel : Matrix (Fin n) (Fin n) K → Matrix (Fin n) (Fin n) K →
      (Fin n → K) → (Fin n → K) → K × K)
    (u0 : Fin n → K) (k : ℕ) : K :=
  passRho A M (iterVec A M P sel u0 k)

/-- The iteration bound hardcoded in the notebook: `itMax = 10`. -/
def itMax : ℕ := 10

/-- The sequence of `(iteration index, Rayleigh quotient)` pairs produced by the
driver loop `for it in range(itMax)`: one pair per pass, no early exit. -/
def events {K : Type*} [LinearOrderedField K] {n : ℕ}
    (A M P : Matrix (Fin n) (Fin n) K)
    (sel : Matrix (Fin n) (Fin n) K → Matrix (Fin n) (Fin n) K →
      (Fin n → K) → (Fin n → K) → K × K)
    (u0 : Fin n → K) (kmax : ℕ) : List (ℕ × K) :=
  (List.range kmax).map fun it => (it, rhoSeq A M P sel u0 it)

/-- The events as printed by the notebook,
`print("[{}] Eigenvalue estimate: {}".format(it,rho/(pi**2)))`:
the estimate is the Rayleigh quotient divided by `π²`. -/
noncomputable def printedEvents {n : ℕ}
    (A M P : Matrix (Fin n) (Fin n) ℝ)
    (sel : Matrix (Fin n) (Fin n) ℝ → Matrix (Fin n) (Fin n) ℝ →
      (Fin n → ℝ) → (Fin n → ℝ) → ℝ × ℝ)
    (u0 : Fin n → ℝ) (kmax : ℕ) : List (ℕ × ℝ) :=
  (events A M P sel u0 kmax).map fun e => (e.1, e.2 / Real.pi ^ 2)

/-- The spec formula for the preconditioned residual direction (§4.2):
`w = P⁻¹( A·u − ρ · M·u )`, with a minus sign on the `ρ·M·u` term.  This is the
formula also displayed in the notebook's own markdown; it is stated here for
comparison with the code's `passW`. -/
def specResidualDirection {K : Type*} [LinearOrderedField K] {n : ℕ}
    (A M P : Matrix (Fin n) (Fin n) K) (rho : K) (u : Fin n → K) : Fin n → K :=
  P *ᵥ (A *ᵥ u - rho • (M *ᵥ u))

/-- Column `j` of a 2×2 matrix, as a vector (named `colv` to avoid clashing with `Matrix.col`). -/
def colv {K : Type*} [LinearOrderedField K]
    (V : Matrix (Fin 2) (Fin 2) K) (j : Fin 2) : Fin 2 → K :=
  fun i => V i j

/-- The documented contract of `scipy.linalg.eigh(a=Asm, b=Msm)` for the
symmetric-definite 2×2 generalized eigenproblem: each column `j` of the returned
eigenvector matrix `V` satisfies `Asm·vⱼ = evⱼ·Msm·vⱼ`, the eigenvalues are in
ascending order, and the columns are `Msm`-orthonormal (`Vᵀ Msm V = 1`). -/
def IsEighResult {K : Type*} [LinearOrderedField K]
    (Asm Msm : Matrix (Fin 2) (Fin 2) K) (ev : Fin 2 → K)
    (V : Matrix (Fin 2) (Fin 2) K) : Prop :=
  (∀ j, Asm *ᵥ colv V j = ev j • (Msm *ᵥ colv V j)) ∧ ev 0 ≤ ev 1 ∧ Vᵀ * Msm * V = 1

/-- The iterate `u0` of the Rayleigh–Ritz-selector run after `k` passes. -/
def rrIter {K : Type*} [LinearOrderedField K] {n : ℕ}
    (A M P : Matrix (Fin n) (Fin n) K)
    (eigh : Matrix (Fin 2) (Fin 2) K → Matrix (Fin 2) (Fin 2) K →
      (Fin 2 → K) × Matrix (Fin 2) (Fin 2) K)
    (u0 : Fin n → K) (k : ℕ) : Fin n → K :=
  iterVec A M P (stepChoiceRR eigh) u0 k

/-- The direction `w` computed during pass `k` of the Rayleigh–Ritz-selector run. -/
def rrW {K : Type*} [LinearOrderedField K] {n : ℕ}
    (A M P : Matrix (Fin n) (Fin n) K)
    (eigh : Matrix (Fin 2) (Fin 2) K → Matrix (Fin 2) (Fin 2) K →
      (Fin 2 → K) × Matrix (Fin 2) (Fin 2) K)
    (u0 : Fin n → K) (k : ℕ) : Fin n → K :=
  passW A M P (rrIter A M P eigh u0 k)

/-- The `smallA` matrix passed to the eigensolver during pass `k`. -/
def rrAmat {K : Type*} [LinearOrderedField K] {n : ℕ}
    (A M P : Matrix (Fin n) (Fin n) K)
    (eigh : Matrix (Fin 2) (Fin 2) K → Matrix (Fin 2) (Fin 2) K →
      (Fin 2 → K) × Matrix (Fin 2) (Fin 2) K)
    (u0 : Fin n → K) (k : ℕ) : Matrix (Fin 2) (Fin 2) K :=
  smallOf A (rrIter A M P eigh u0 k) (rrW A M P eigh u0 k)

/-- The `smallM` matrix passed to the eigensolver during pass `k`. -/
def rrMmat {K : Type*} [LinearOrderedField K] {n : ℕ}
    (A M P : Matrix (Fin n) (Fin n) K)
    (eigh : Matrix (Fin 2) (Fin 2) K → Matrix (Fin 2) (Fin 2) K →
      (Fin 2 → K) × Matrix (Fin 2) (Fin 2) K)
    (u0 : Fin n → K) (k : ℕ) : Matrix (Fin 2) (Fin 2) K :=
  smallOf M (rrIter A M P eigh u0 k) (rrW A M P eigh u0 k)

/-- The eigenvalues returned by the eigensolver during pass `k`. -/
def rrEv {K : Type*} [LinearOrderedField K] {n : ℕ}
    (A M P : Matrix (Fin n) (Fin n) K)
    (eigh : Matrix (Fin 2) (Fin 2) K → Matrix (Fin 2) (Fin 2) K →
      (Fin 2 → K) × Matrix (Fin 2) (Fin 2) K)
    (u0 : Fin n → K) (k : ℕ) : Fin 2 → K :=
  (eigh (rrAmat A M P eigh u0 k) (rrMmat A M P eigh u0 k)).1

/-- The eigenvector matrix returned by the eigensolver during pass `k`. -/
def rrV {K : Type*} [LinearOrderedField K] {n : ℕ}
    (A M P : Matrix (Fin n) (Fin n) K)
    (eigh : Matrix (Fin 2) (Fin 2) K → Matrix (Fin 2) (Fin 2) K →
      (Fin 2 → K) × Matrix (Fin 2) (Fin 2) K)
    (u0 : Fin n → K) (k : ℕ) : Matrix (Fin 2) (Fin 2) K :=
  (eigh (rrAmat A M P eigh u0 k) (rrMmat A M P eigh u0 k)).2

/-- Modelled from the spec: the error taxonomy of §7.  The repository's notebook
code raises no such errors itself (degenerate inputs surface as exceptions
inside the external dense eigensolver, or as division by zero); §7 names the
errors a conforming implementation must signal. -/
inductive SpecError where
  | DegenerateIterateError
  | DegenerateSubspaceError
  | OperatorApplyError
  | EigensolverError
deriving DecidableEq, Repr

/-- Modelled from the spec: §4.1's guarded Rayleigh quotient evaluator.  The
notebook computes `rho = Au0.dot(u0)/Mu0.dot(u0)` with no guard; the spec
requires guarding `u·Mu` with a tolerance and signalling
`DegenerateIterateError` instead of dividing by approximately zero. -/
def rayleighQuotientChecked {K : Type*} [LinearOrderedField K] {n : ℕ}
    (tol : K) (A M : Matrix (Fin n) (Fin n) K) (u : Fin n → K) :
    Except SpecError K :=
  if |u ⬝ᵥ M *ᵥ u| ≤ tol then Except.error SpecError.DegenerateIterateError
  else Except.ok ((u ⬝ᵥ A *ᵥ u) / (u ⬝ᵥ M *ᵥ u))

/-- Modelled from the spec: §4.3's Rayleigh–Ritz selector with the degeneracy
check.  The notebook's `stepChoice` has no guard (a singular `smallM` surfaces
as an exception inside `scipy.linalg.eigh`); the spec requires signalling
`DegenerateSubspaceError` when the 2×2 matrix `M̃` is singular (i.e. when `u0`
and `w` are linearly dependent).  The guard tests the 2×2 determinant of
`smallM`. -/
def stepChoiceChecked {K : Type*} [LinearOrderedField K] {n : ℕ}
    (eigh : Matrix (Fin 2) (Fin 2) K → Matrix (Fin 2) (Fin 2) K →
      (Fin 2 → K) × Matrix (Fin 2) (Fin 2) K)
    (Asc Msc : Matrix (Fin n) (Fin n) K) (w u0 : Fin n → K) :
    Except SpecError (K × K) :=
  if smallOf Msc u0 w 0 0 * smallOf Msc u0 w 1 1 -
      smallOf Msc u0 w 0 1 * smallOf Msc u0 w 1 0 = 0 then
    Except.error SpecError.DegenerateSubspaceError
  else
    Except.ok ((eigh (smallOf Asc u0 w) (smallOf Msc u0 w)).2 0 0,
      (eigh (smallOf Asc u0 w) (smallOf Msc u0 w)).2 1 0)

/-- The mutable objects visible to one pass of the driver loop: the three
operator handles (`A.mat`, `M.mat`, the preconditioner `pc`) and the two
vectors the loop writes (`u0`, and `w`, the target of `pc.apply(u,w)`).
Fresh temporaries (`Au0`, `Mu0`, `u`) are created by `duplicate` inside the
pass and dropped at its end, so they are not part of the state. -/
structure DriverState (K : Type*) (n : ℕ) where
  Amat : Matrix (Fin n) (Fin n) K
  Mmat : Matrix (Fin n) (Fin n) K
  pc : Matrix (Fin n) (Fin n) K
  u0 : Fin n → K
  w : Fin n → K

/-- One pass of the driver loop as a state transformer: the pass writes only
the fields `w` (by `pc.apply(u,w)`) and `u0` (by the final update); the
operators are only applied, via `mult`/`apply`, never written. -/
def driverPass {K : Type*} [LinearOrderedField K] {n : ℕ}
    (sel : Matrix (Fin n) (Fin n) K → Matrix (Fin n) (Fin n) K →
      (Fin n → K) → (Fin n → K) → K × K)
    (s : DriverState K n) : DriverState K n :=
  let w := passW s.Amat s.Mmat s.pc s.u0
  let alpha := sel s.Amat s.Mmat w s.u0
  { s with u0 := alpha.1 • s.u0 + alpha.2 • w, w := w }

section PencilLemmas

variable {K : Type*} [LinearOrderedField K]

theorem dotProduct_fin2 (x y : Fin 2 → K) : x ⬝ᵥ y = x 0 * y 0 + x 1 * y 1 := by
  simp [Matrix.dotProduct, Fin.sum_univ_two]

theorem mulVec_fin2 (B : Matrix (Fin 2) (Fin 2) K) (x : Fin 2 → K) (i : Fin 2) :
    (B *ᵥ x) i = B i 0 * x 0 + B i 1 * x 1 := by
  simp [Matrix.mulVec, Matrix.dotProduct, Fin.sum_univ_two]

theorem smallOf_apply_00 {n : ℕ} (B : Matrix (Fin n) (Fin n) K) (u w : Fin n → K) :
    smallOf B u w 0 0 = u ⬝ᵥ B *ᵥ u := rfl

theorem smallOf_apply_01 {n : ℕ} (B : Matrix (Fin n) (Fin n) K) (u w : Fin n → K) :
    smallOf B u w 0 1 = u ⬝ᵥ B *ᵥ w := rfl

theorem smallOf_apply_10 {n : ℕ} (B : Matrix (Fin n) (Fin n) K) (u w : Fin n → K) :
    smallOf B u w 1 0 = w ⬝ᵥ B *ᵥ u := rfl

theorem smallOf_apply_11 {n : ℕ} (B : Matrix (Fin n) (Fin n) K) (u w : Fin n → K) :
    smallOf B u w 1 1 = w ⬝ᵥ B *ᵥ w := rfl

theorem conj_apply (B V : Matrix (Fin 2) (Fin 2) K) (i j : Fin 2) :
    (Vᵀ * B * V) i j = colv V i ⬝ᵥ B *ᵥ colv V j := by
  simp [Matrix.mul_apply, Matrix.mulVec, Matrix.dotProduct, Fin.sum_univ_two, colv]
  ring

theorem quad_conj (B V : Matrix (Fin 2) (Fin 2) K) (c : Fin 2 → K) :
    (V *ᵥ c) ⬝ᵥ B *ᵥ (V *ᵥ c) = c ⬝ᵥ (Vᵀ * B * V) *ᵥ c := by
  simp [Matrix.mul_apply, Matrix.mulVec, Matrix.dotProduct, Fin.sum_univ_two]
  ring

theorem quad_lift {n : ℕ} (B : Matrix (Fin n) (Fin n) K) (u w : Fin n → K)
    (x : Fin 2 → K) :
    (x 0 • u + x 1 • w) ⬝ᵥ B *ᵥ (x 0 • u + x 1 • w) = x ⬝ᵥ (smallOf B u w) *ᵥ x := by
  rw [dotProduct_fin2, mulVec_fin2, mulVec_fin2,
    smallOf_apply_00, smallOf_apply_01, smallOf_apply_10, smallOf_apply_11]
  simp only [Matrix.mulVec_add, Matrix.mulVec_smul, Matrix.dotProduct_add,
    Matrix.add_dotProduct, Matrix.dotProduct_smul, Matrix.smul_dotProduct,
    smul_eq_mul]
  ring

theorem IsEighResult.left_inv {Asm Msm V : Matrix (Fin 2) (Fin 2) K} {ev : Fin 2 → K}
    (h : IsEighResult Asm Msm ev V) : Vᵀ * Msm * V = 1 :=
  h.2.2

theorem IsEighResult.right_inv {Asm Msm V : Matrix (Fin 2) (Fin 2) K} {ev : Fin 2 → K}
    (h : IsEighResult Asm Msm ev V) : V * (Vᵀ * Msm) = 1 :=
  Matrix.mul_eq_one_comm.mp h.2.2

theorem IsEighResult.repr {Asm Msm V : Matrix (Fin 2) (Fin 2) K} {ev : Fin 2 → K}
    (h : IsEighResult Asm Msm ev V) (x : Fin 2 → K) :
    V *ᵥ ((Vᵀ * Msm) *ᵥ x) = x := by
  rw [Matrix.mulVec_mulVec, h.right_inv, Matrix.one_mulVec]

theorem IsEighResult.norm_apply {Asm Msm V : Matrix (Fin 2) (Fin 2) K} {ev : Fin 2 → K}
    (h : IsEighResult Asm Msm ev V) (i j : Fin 2) :
    colv V i ⬝ᵥ Msm *ᵥ colv V j = (1 : Matrix (Fin 2) (Fin 2) K) i j := by
  rw [← conj_apply, h.2.2]

theorem IsEighResult.conj_diag {Asm Msm V : Matrix (Fin 2) (Fin 2) K} {ev : Fin 2 → K}
    (h : IsEighResult Asm Msm ev V) : Vᵀ * Asm * V = Matrix.diagonal ev := by
  ext i j
  rw [conj_apply, h.1 j, Matrix.dotProduct_smul, h.norm_apply i j, smul_eq_mul]
  by_cases hij : i = j
  · subst hij
    simp [Matrix.one_apply, Matrix.diagonal_apply_eq]
  · simp [Matrix.one_apply_ne hij, Matrix.diagonal_apply_ne _ hij]

theorem IsEighResult.col0_norm {Asm Msm V : Matrix (Fin 2) (Fin 2) K} {ev : Fin 2 → K}
    (h : IsEighResult Asm Msm ev V) :
    colv V 0 ⬝ᵥ Msm *ᵥ colv V 0 = 1 := by
  rw [h.norm_apply 0 0, Matrix.one_apply_eq]

theorem IsEighResult.col0_ne_zero {Asm Msm V : Matrix (Fin 2) (Fin 2) K} {ev : Fin 2 → K}
    (h : IsEighResult Asm Msm ev V) : colv V 0 ≠ 0 := by
  intro h0
  have h1 := h.col0_norm
  rw [h0, Matrix.zero_dotProduct] at h1
  exact zero_ne_one h1

theorem IsEighResult.quadM {Asm Msm V : Matrix (Fin 2) (Fin 2) K} {ev : Fin 2 → K}
    (h : IsEighResult Asm Msm ev V) (y : Fin 2 → K) :
    y ⬝ᵥ Msm *ᵥ y =
      ((Vᵀ * Msm) *ᵥ y) 0 * ((Vᵀ * Msm) *ᵥ y) 0 +
      ((Vᵀ * Msm) *ᵥ y) 1 * ((Vᵀ * Msm) *ᵥ y) 1 := by
  conv_lhs => rw [← h.repr y]
  rw [quad_conj, h.left_inv, Matrix.one_mulVec, dotProduct_fin2]

theorem IsEighResult.quadA {Asm Msm V : Matrix (Fin 2) (Fin 2) K} {ev : Fin 2 → K}
    (h : IsEighResult Asm Msm ev V) (y : Fin 2 → K) :
    y ⬝ᵥ Asm *ᵥ y =
      ev 0 * (((Vᵀ * Msm) *ᵥ y) 0 * ((Vᵀ * Msm) *ᵥ y) 0) +
      ev 1 * (((Vᵀ * Msm) *ᵥ y) 1 * ((Vᵀ * Msm) *ᵥ y) 1) := by
  conv_lhs => rw [← h.repr y]
  rw [quad_conj, h.conj_diag, dotProduct_fin2, Matrix.mulVec_diagonal,
    Matrix.mulVec_diagonal]
  ring

theorem IsEighResult.rayleigh_lb {Asm Msm V : Matrix (Fin 2) (Fin 2) K} {ev : Fin 2 → K}
    (h : IsEighResult Asm Msm ev V) (y : Fin 2 → K) :
    ev 0 * (y ⬝ᵥ Msm *ᵥ y) ≤ y ⬝ᵥ Asm *ᵥ y := by
  rw [h.quadA y, h.quadM y]
  nlinarith [mul_self_nonneg (((Vᵀ * Msm) *ᵥ y) 1), h.2.1]

theorem IsEighResult.eig_coords {Asm Msm V : Matrix (Fin 2) (Fin 2) K} {ev : Fin 2 → K}
    (h : IsEighResult Asm Msm ev V) (μ : K) (x : Fin 2 → K)
    (hrel : Asm *ᵥ x = μ • (Msm *ᵥ x)) (i : Fin 2) :
    ev i * ((Vᵀ * Msm) *ᵥ x) i = μ * ((Vᵀ * Msm) *ᵥ x) i := by
  have h1 : (Vᵀ * Asm) *ᵥ x = μ • ((Vᵀ * Msm) *ᵥ x) := by
    rw [← Matrix.mulVec_mulVec, hrel, Matrix.mulVec_smul, Matrix.mulVec_mulVec]
  have h2 : (Vᵀ * Asm) *ᵥ x = Matrix.diagonal ev *ᵥ ((Vᵀ * Msm) *ᵥ x) := by
    conv_lhs => rw [← h.repr x, Matrix.mulVec_mulVec, h.conj_diag]
  have h3 := congrFun (h2.symm.trans h1) i
  rw [Matrix.mulVec_diagonal] at h3
  simpa using h3

theorem IsEighResult.min_eig {Asm Msm V : Matrix (Fin 2) (Fin 2) K} {ev : Fin 2 → K}
    (h : IsEighResult Asm Msm ev V) (μ : K) (x : Fin 2 → K)
    (hx : x ≠ 0) (hrel : Asm *ᵥ x = μ • (Msm *ᵥ x)) : ev 0 ≤ μ := by
  have hc : (Vᵀ * Msm) *ᵥ x ≠ 0 := by
    intro h0
    apply hx
    rw [← h.repr x, h0, Matrix.mulVec_zero]
  have hcases : ((Vᵀ * Msm) *ᵥ x) 0 ≠ 0 ∨ ((Vᵀ * Msm) *ᵥ x) 1 ≠ 0 := by
    by_contra hcon
    push_neg at hcon
    apply hc
    funext i
    fin_cases i
    · exact hcon.1
    · exact hcon.2
  rcases hcases with h0 | h1
  · have := h.eig_coords μ x hrel 0
    exact le_of_eq (mul_right_cancel₀ h0 this)
  · have := h.eig_coords μ x hrel 1
    have hev1 : ev 1 = μ := mul_right_cancel₀ h1 this
    exact hev1 ▸ h.2.1

end PencilLemmas

section DriverLemmas

variable {K : Type*} [LinearOrderedField K] {n : ℕ}

theorem iterVec_succ (A M P : Matrix (Fin n) (Fin n) K)
    (sel : Matrix (Fin n) (Fin n) K → Matrix (Fin n) (Fin n) K →
      (Fin n → K) → (Fin n → K) → K × K)
    (u0 : Fin n → K) (k : ℕ) :
    iterVec A M P sel u0 (k + 1) = passNext A M P sel (iterVec A M P sel u0 k) :=
  rfl

theorem iterVec_const (A M P : Matrix (Fin n) (Fin n) K)
    (sel : Matrix (Fin n) (Fin n) K → Matrix (Fin n) (Fin n) K →
      (Fin n → K) → (Fin n → K) → K × K)
    (u0 : Fin n → K) (h : passNext A M P sel u0 = u0) :
    ∀ k, iterVec A M P sel u0 k = u0 := by
  intro k
  induction k with
  | zero => rfl
  | succ k ih =>
    rw [iterVec_succ, ih, h]

theorem iterVec_shift (A M P : Matrix (Fin n) (Fin n) K)
    (sel : Matrix (Fin n) (Fin n) K → Matrix (Fin n) (Fin n) K →
      (Fin n → K) → (Fin n → K) → K × K)
    (u0 : Fin n → K) (k : ℕ) :
    iterVec A M P sel u0 (k + 1) = iterVec A M P sel (passNext A M P sel u0) k := by
  induction k with
  | zero => rfl
  | succ k ih =>
    rw [iterVec_succ, ih, iterVec_succ]

theorem passRho_smul (A M : Matrix (Fin n) (Fin n) K) (u0 : Fin n → K)
    (d : K) (hd : d ≠ 0) : passRho A M (d • u0) = passRho A M u0 := by
  unfold passRho
  rw [Matrix.mulVec_smul, Matrix.mulVec_smul, Matrix.smul_dotProduct,
    Matrix.dotProduct_smul, Matrix.smul_dotProduct, Matrix.dotProduct_smul]
  simp only [smul_eq_mul]
  rw [show d * (d * ((A *ᵥ u0) ⬝ᵥ u0)) = d * d * ((A *ᵥ u0) ⬝ᵥ u0) by ring,
    show d * (d * ((M *ᵥ u0) ⬝ᵥ u0)) = d * d * ((M *ᵥ u0) ⬝ᵥ u0) by ring]
  exact mul_div_mul_left _ _ (mul_ne_zero hd hd)

theorem passW_smul (A M P : Matrix (Fin n) (Fin n) K) (u0 : Fin n → K)
    (d : K) (hd : d ≠ 0) : passW A M P (d • u0) = d • passW A M P u0 := by
  unfold passW
  rw [passRho_smul A M u0 d hd, Matrix.mulVec_smul, Matrix.mulVec_smul,
    smul_comm (passRho A M u0) d (M *ᵥ u0), ← smul_add, Matrix.mulVec_smul]

theorem alpha_update_smul (alpha : K × K) (u0 w : Fin n → K) (d : K) :
    alpha.1 • (d • u0) + alpha.2 • (d • w) = d • (alpha.1 • u0 + alpha.2 • w) := by
  rw [smul_add, smul_comm alpha.1 d u0, smul_comm alpha.2 d w]

theorem passNext_const_smul (A M P : Matrix (Fin n) (Fin n) K) (u0 : Fin n → K)
    (d : K) (hd : d ≠ 0) :
    passNext A M P stepChoiceConst (d • u0) = d • passNext A M P stepChoiceConst u0 := by
  show (1 / 2 : K) • (d • u0) + (1 / 2 : K) • passW A M P (d • u0) =
    d • ((1 / 2 : K) • u0 + (1 / 2 : K) • passW A M P u0)
  rw [passW_smul A M P u0 d hd, ← alpha_update_smul ((1 : K) / 2, (1 : K) / 2)]

theorem smallOf_smul (B : Matrix (Fin n) (Fin n) K) (u w : Fin n → K) (d : K) :
    smallOf B (d • u) (d • w) = (d * d) • smallOf B u w := by
  ext i j
  fin_cases i <;> fin_cases j <;>
    simp [smallOf, Matrix.mulVec_smul, Matrix.smul_dotProduct,
      Matrix.dotProduct_smul, Matrix.smul_apply, smul_eq_mul] <;> ring

theorem rr_passNext_eq (A M P : Matrix (Fin n) (Fin n) K)
    (eigh : Matrix (Fin 2) (Fin 2) K → Matrix (Fin 2) (Fin 2) K →
      (Fin 2 → K) × Matrix (Fin 2) (Fin 2) K)
    (u0 w : Fin n → K) (hw : w = passW A M P u0) :
    passNext A M P (stepChoiceRR eigh) u0 =
      colv (eigh (smallOf A u0 w) (smallOf M u0 w)).2 0 0 • u0 +
      colv (eigh (smallOf A u0 w) (smallOf M u0 w)).2 0 1 • w := by
  subst hw
  rfl

theorem rr_step_den (A M P : Matrix (Fin n) (Fin n) K)
    (eigh : Matrix (Fin 2) (Fin 2) K → Matrix (Fin 2) (Fin 2) K →
      (Fin 2 → K) × Matrix (Fin 2) (Fin 2) K)
    (u0 w : Fin n → K) (hw : w = passW A M P u0)
    (hE : IsEighResult (smallOf A u0 w) (smallOf M u0 w)
      (eigh (smallOf A u0 w) (smallOf M u0 w)).1
      (eigh (smallOf A u0 w) (smallOf M u0 w)).2) :
    passNext A M P (stepChoiceRR eigh) u0 ⬝ᵥ M *ᵥ passNext A M P (stepChoiceRR eigh) u0 = 1 := by
  rw [rr_passNext_eq A M P eigh u0 w hw, quad_lift]
  exact hE.col0_norm

theorem rr_step_nonzero (A M P : Matrix (Fin n) (Fin n) K)
    (eigh : Matrix (Fin 2) (Fin 2) K → Matrix (Fin 2) (Fin 2) K →
      (Fin 2 → K) × Matrix (Fin 2) (Fin 2) K)
    (u0 w : Fin n → K) (hw : w = passW A M P u0)
    (hE : IsEighResult (smallOf A u0 w) (smallOf M u0 w)
      (eigh (smallOf A u0 w) (smallOf M u0 w)).1
      (eigh (smallOf A u0 w) (smallOf M u0 w)).2) :
    passNext A M P (stepChoiceRR eigh) u0 ≠ 0 := by
  intro h0
  have h1 := rr_step_den A M P eigh u0 w hw hE
  rw [h0, Matrix.zero_dotProduct] at h1
  exact zero_ne_one h1

theorem rr_step_num (A M P : Matrix (Fin n) (Fin n) K)
    (eigh : Matrix (Fin 2) (Fin 2) K → Matrix (Fin 2) (Fin 2) K →
      (Fin 2 → K) × Matrix (Fin 2) (Fin 2) K)
    (u0 w : Fin n → K) (hw : w = passW A M P u0)
    (hE : IsEighResult (smallOf A u0 w) (smallOf M u0 w)
      (eigh (smallOf A u0 w) (smallOf M u0 w)).1
      (eigh (smallOf A u0 w) (smallOf M u0 w)).2) :
    passNext A M P (stepChoiceRR eigh) u0 ⬝ᵥ A *ᵥ passNext A M P (stepChoiceRR eigh) u0 =
      (eigh (smallOf A u0 w) (smallOf M u0 w)).1 0 := by
  rw [rr_passNext_eq A M P eigh u0 w hw, quad_lift, hE.1 0, Matrix.dotProduct_smul,
    hE.col0_norm, smul_eq_mul, mul_one]

theorem rr_step_rho_eq (A M P : Matrix (Fin n) (Fin n) K)
    (eigh : Matrix (Fin 2) (Fin 2) K → Matrix (Fin 2) (Fin 2) K →
      (Fin 2 → K) × Matrix (Fin 2) (Fin 2) K)
    (u0 w : Fin n → K) (hw : w = passW A M P u0)
    (hE : IsEighResult (smallOf A u0 w) (smallOf M u0 w)
      (eigh (smallOf A u0 w) (smallOf M u0 w)).1
      (eigh (smallOf A u0 w) (smallOf M u0 w)).2) :
    passRho A M (passNext A M P (stepChoiceRR eigh) u0) =
      (eigh (smallOf A u0 w) (smallOf M u0 w)).1 0 := by
  unfold passRho
  rw [Matrix.dotProduct_comm, Matrix.dotProduct_comm ((M *ᵥ _)),
    rr_step_num A M P eigh u0 w hw hE, rr_step_den A M P eigh u0 w hw hE, div_one]

theorem rr_step_rho_le (A M P : Matrix (Fin n) (Fin n) K)
    (eigh : Matrix (Fin 2) (Fin 2) K → Matrix (Fin 2) (Fin 2) K →
      (Fin 2 → K) × Matrix (Fin 2) (Fin 2) K)
    (u0 w : Fin n → K) (hw : w = passW A M P u0)
    (hE : IsEighResult (smallOf A u0 w) (smallOf M u0 w)
      (eigh (smallOf A u0 w) (smallOf M u0 w)).1
      (eigh (smallOf A u0 w) (smallOf M u0 w)).2)
    (hden : 0 < u0 ⬝ᵥ M *ᵥ u0) :
    passRho A M (passNext A M P (stepChoiceRR eigh) u0) ≤ passRho A M u0 := by
  rw [rr_step_rho_eq A M P eigh u0 w hw hE]
  have hy := hE.rayleigh_lb ![1, 0]
  have hyM : (![1, 0] : Fin 2 → K) ⬝ᵥ smallOf M u0 w *ᵥ ![1, 0] = u0 ⬝ᵥ M *ᵥ u0 := by
    rw [dotProduct_fin2, mulVec_fin2, mulVec_fin2, smallOf_apply_00]
    simp
  have hyA : (![1, 0] : Fin 2 → K) ⬝ᵥ smallOf A u0 w *ᵥ ![1, 0] = u0 ⬝ᵥ A *ᵥ u0 := by
    rw [dotProduct_fin2, mulVec_fin2, mulVec_fin2, smallOf_apply_00]
    simp
  rw [hyM, hyA] at hy
  have hrho : passRho A M u0 = (u0 ⬝ᵥ A *ᵥ u0) / (u0 ⬝ᵥ M *ᵥ u0) := by
    unfold passRho
    rw [Matrix.dotProduct_comm, Matrix.dotProduct_comm ((M *ᵥ u0))]
  rw [hrho]
  exact (le_div_iff₀ hden).mpr hy

end DriverLemmas

section Claims

/-- Claim C1 (code bug): the notebook's displayed formula, the spec's §4.2 and
the claim all demand the residual direction `w = P⁻¹(A·u − ρ·M·u)`, but the
code computes `u = Au0+rho*Mu0` with a plus sign before applying the
preconditioner.  At the concrete, nondegenerate input `n = 1`, `A = [[2]]`,
`M = [[1]]`, `P = [[1]]`, `u0 = [1]` (where `ρ = 2`), the code's direction is
`[4]` while the specified direction is `[0]`, so the two disagree. -/
theorem search_direction_plus_sign :
    passW (K := ℚ) !![2] !![1] !![1] ![1] = ![4] ∧
    specResidualDirection (K := ℚ) !![2] !![1] !![1]
      (passRho !![2] !![1] ![1]) ![1] = ![0] ∧
    passW (K := ℚ) !![2] !![1] !![1] ![1] ≠
      specResidualDirection (K := ℚ) !![2] !![1] !![1]
        (passRho !![2] !![1] ![1]) ![1] := by
  have h1 : passW (K := ℚ) !![2] !![1] !![1] ![1] = ![4] := by
    funext i
    fin_cases i
    norm_num [passW, passRho, Matrix.mulVec, Matrix.dotProduct]
  have h2 : specResidualDirection (K := ℚ) !![2] !![1] !![1]
      (passRho !![2] !![1] ![1]) ![1] = ![0] := by
    funext i
    fin_cases i
    norm_num [specResidualDirection, passRho, Matrix.mulVec, Matrix.dotProduct]
  refine ⟨h1, h2, ?_⟩
  rw [h1, h2]
  intro h
  have h0 := congrFun h 0
  norm_num at h0

/-- Claim C2: for an iterate `u` with `u ≠ 0` and `u·Mu > 0`, the Rayleigh
quotient computed at the start of each pass, `rho = Au0.dot(u0)/Mu0.dot(u0)`,
equals `(u·Au)/(u·Mu)`; in the embedding it is a pure function of the two
operator applications `A·u`, `M·u` and the two dot products. -/
theorem rho_is_rayleigh_quotient {K : Type*} [LinearOrderedField K] {n : ℕ}
    (A M : Matrix (Fin n) (Fin n) K) (u : Fin n → K)
    (hu : u ≠ 0) (hden : 0 < u ⬝ᵥ M *ᵥ u) :
    passRho A M u = (u ⬝ᵥ A *ᵥ u) / (u ⬝ᵥ M *ᵥ u) := by
  unfold passRho
  rw [Matrix.dotProduct_comm, Matrix.dotProduct_comm (M *ᵥ u)]

/-- Witness for C2 at `n = 1`, `A = [[2]]`, `M = [[1]]`, `u = [1]`. -/
theorem rho_is_rayleigh_quotient_witness :
    ((![1] : Fin 1 → ℚ) ≠ 0 ∧ 0 < (![1] : Fin 1 → ℚ) ⬝ᵥ !![1] *ᵥ ![1]) ∧
    passRho !![2] !![1] (![1] : Fin 1 → ℚ) =
      ((![1] : Fin 1 → ℚ) ⬝ᵥ !![2] *ᵥ ![1]) / ((![1] : Fin 1 → ℚ) ⬝ᵥ !![1] *ᵥ ![1]) :=
  ⟨⟨by decide, by simp [Matrix.dotProduct, Matrix.mulVec]⟩,
    rho_is_rayleigh_quotient !![2] !![1] ![1] (by decide)
      (by simp [Matrix.dotProduct, Matrix.mulVec])⟩

/-- Claim C5: the driver loop `for it in range(itMax)` with `itMax = 10` always
performs exactly 10 passes — no tolerance test, no early exit — and prints
exactly one `(iteration index, eigenvalue estimate)` line per pass, the indices
being `0, …, 9` in order. -/
theorem driver_fixed_pass_count {n : ℕ} (A M P : Matrix (Fin n) (Fin n) ℝ)
    (sel : Matrix (Fin n) (Fin n) ℝ → Matrix (Fin n) (Fin n) ℝ →
      (Fin n → ℝ) → (Fin n → ℝ) → ℝ × ℝ)
    (u0 : Fin n → ℝ) :
    (printedEvents A M P sel u0 itMax).length = 10 ∧
    (printedEvents A M P sel u0 itMax).map Prod.fst = List.range 10 := by
  constructor
  · simp [printedEvents, events, itMax]
  · unfold printedEvents events itMax
    rw [List.map_map, List.map_map]
    show (List.range 10).map (fun it => it) = List.range 10
    exact List.map_id' _

/-- Claim C6 (spec-modelled): on a numerically parallel pair (`w = c·u0` or
`u0 = c·w`, making the 2×2 matrix `M̃` singular), the guarded Rayleigh–Ritz
selector signals `DegenerateSubspaceError` instead of returning a value pair. -/
theorem stepChoiceChecked_degenerate_subspace {K : Type*} [LinearOrderedField K]
    {n : ℕ}
    (eigh : Matrix (Fin 2) (Fin 2) K → Matrix (Fin 2) (Fin 2) K →
      (Fin 2 → K) × Matrix (Fin 2) (Fin 2) K)
    (Asc Msc : Matrix (Fin n) (Fin n) K) (w u0 : Fin n → K) (c : K)
    (h : w = c • u0 ∨ u0 = c • w) :
    stepChoiceChecked eigh Asc Msc w u0 =
      Except.error SpecError.DegenerateSubspaceError := by
  unfold stepChoiceChecked
  rcases h with h | h <;> subst h <;>
  · rw [if_pos]
    rw [smallOf_apply_00, smallOf_apply_01, smallOf_apply_10, smallOf_apply_11]
    simp only [Matrix.mulVec_smul, Matrix.smul_dotProduct, Matrix.dotProduct_smul,
      smul_eq_mul]
    ring

/-- Witness for C6 at `n = 1`, `u0 = [1]`, `w = [2] = 2·u0`. -/
theorem stepChoiceChecked_degenerate_subspace_witness :
    ((![2] : Fin 1 → ℚ) = (2 : ℚ) • ![1] ∨ (![1] : Fin 1 → ℚ) = (2 : ℚ) • ![2]) ∧
    stepChoiceChecked (fun _ _ => (![0, 0], 1)) !![1] !![1] (![2] : Fin 1 → ℚ) ![1] =
      Except.error SpecError.DegenerateSubspaceError :=
  ⟨Or.inl (by funext i; fin_cases i; simp),
    stepChoiceChecked_degenerate_subspace (fun _ _ => (![0, 0], 1)) !![1] !![1]
      ![2] ![1] 2 (Or.inl (by funext i; fin_cases i; simp))⟩

/-- Claim C7 (spec-modelled): when the denominator `u·Mu` is numerically zero
(within the tolerance), the guarded Rayleigh quotient evaluator signals
`DegenerateIterateError` instead of dividing by approximately zero. -/
theorem rayleighQuotientChecked_degenerate_iterate {K : Type*}
    [LinearOrderedField K] {n : ℕ} (tol : K)
    (A M : Matrix (Fin n) (Fin n) K) (u : Fin n → K)
    (h : |u ⬝ᵥ M *ᵥ u| ≤ tol) :
    rayleighQuotientChecked tol A M u =
      Except.error SpecError.DegenerateIterateError := by
  unfold rayleighQuotientChecked
  rw [if_pos h]

/-- Witness for C7 at `n = 1`, `u = [0]`, `tol = 0`. -/
theorem rayleighQuotientChecked_degenerate_iterate_witness :
    |(![0] : Fin 1 → ℚ) ⬝ᵥ !![1] *ᵥ ![0]| ≤ 0 ∧
    rayleighQuotientChecked 0 !![1] !![1] (![0] : Fin 1 → ℚ) =
      Except.error SpecError.DegenerateIterateError :=
  ⟨by simp [Matrix.dotProduct, Matrix.mulVec],
    rayleighQuotientChecked_degenerate_iterate 0 !![1] !![1] ![0]
      (by simp [Matrix.dotProduct, Matrix.mulVec])⟩

/-- Claim C9: one pass of the driver loop leaves the operators `A`, `M` and the
preconditioner unchanged; only the iteration state is written — `u0` receives
the next-iterate combination and `w` the preconditioner output — and both new
values are pure functions of the old state. -/
theorem driverPass_frame {K : Type*} [LinearOrderedField K] {n : ℕ}
    (sel : Matrix (Fin n) (Fin n) K → Matrix (Fin n) (Fin n) K →
      (Fin n → K) → (Fin n → K) → K × K)
    (s : DriverState K n) :
    (driverPass sel s).Amat = s.Amat ∧
    (driverPass sel s).Mmat = s.Mmat ∧
    (driverPass sel s).pc = s.pc ∧
    (driverPass sel s).u0 = passNext s.Amat s.Mmat s.pc sel s.u0 ∧
    (driverPass sel s).w = passW s.Amat s.Mmat s.pc s.u0 :=
  ⟨rfl, rfl, rfl, rfl, rfl⟩

/-- Claim C10: for the same initial vector, pass 0 of the constant-coefficient
driver and of the Rayleigh–Ritz driver emit the same first event
`(0, ρ(u0))`: the pass-0 Rayleigh quotient is computed from `u0` alone, before
any step-selection call. -/
theorem first_estimate_selector_independent {K : Type*} [LinearOrderedField K]
    {n : ℕ} (A M P : Matrix (Fin n) (Fin n) K)
    (eigh : Matrix (Fin 2) (Fin 2) K → Matrix (Fin 2) (Fin 2) K →
      (Fin 2 → K) × Matrix (Fin 2) (Fin 2) K)
    (u0 : Fin n → K) (kmax : ℕ) (h : 0 < kmax) :
    (events A M P stepChoiceConst u0 kmax).head? = some (0, passRho A M u0) ∧
    (events A M P (stepChoiceRR eigh) u0 kmax).head? = some (0, passRho A M u0) := by
  obtain ⟨m, rfl⟩ : ∃ m, kmax = m + 1 := ⟨kmax - 1, (Nat.succ_pred_eq_of_pos h).symm⟩
  constructor <;> simp [events, List.range_succ_eq_map, rhoSeq, iterVec]

/-- Witness for C10 at `n = 1`, `A = M = P = [[1]]`, `u0 = [1]`, `kmax = 1`. -/
theorem first_estimate_selector_independent_witness :
    0 < 1 ∧
    ((events (K := ℚ) !![1] !![1] !![1] stepChoiceConst ![1] 1).head? =
        some (0, passRho !![1] !![1] ![1]) ∧
      (events (K := ℚ) !![1] !![1] !![1]
          (stepChoiceRR fun _ _ => (![0, 0], 1)) ![1] 1).head? =
        some (0, passRho !![1] !![1] ![1])) :=
  ⟨by decide,
    first_estimate_selector_independent !![1] !![1] !![1]
      (fun _ _ => (![0, 0], 1)) ![1] 1 (by decide)⟩

theorem rr_iter_succ {K : Type*} [LinearOrderedField K] {n : ℕ}
    (A M P : Matrix (Fin n) (Fin n) K)
    (eigh : Matrix (Fin 2) (Fin 2) K → Matrix (Fin 2) (Fin 2) K →
      (Fin 2 → K) × Matrix (Fin 2) (Fin 2) K)
    (u0 : Fin n → K) (k : ℕ) :
    rrIter A M P eigh u0 (k + 1) =
      colv (rrV A M P eigh u0 k) 0 0 • rrIter A M P eigh u0 k +
      colv (rrV A M P eigh u0 k) 0 1 • rrW A M P eigh u0 k :=
  rfl

theorem scaled_pencil_col0 {K : Type*} [LinearOrderedField K]
    {Asm Msm V V' : Matrix (Fin 2) (Fin 2) K} {ev ev' : Fin 2 → K} {d : K}
    (hd : d ≠ 0)
    (hE : IsEighResult Asm Msm ev V)
    (hE' : IsEighResult ((d * d) • Asm) ((d * d) • Msm) ev' V')
    (hs : ev 0 < ev 1) :
    ∃ t : K, t ≠ 0 ∧ colv V' 0 = t • colv V 0 := by
  have hdd : d * d ≠ 0 := mul_ne_zero hd hd
  have hx' : colv V' 0 ≠ 0 := hE'.col0_ne_zero
  -- the scaled pencil relation for column 0 of `V'` descends to the unscaled pencil
  have hrel' : Asm *ᵥ colv V' 0 = ev' 0 • (Msm *ᵥ colv V' 0) := by
    have h1 := hE'.1 0
    rw [Matrix.smul_mulVec_assoc, Matrix.smul_mulVec_assoc,
      smul_comm (ev' 0) (d * d)] at h1
    exact smul_right_injective _ hdd h1
  -- the smallest eigenvalues of the two solver outputs agree
  have hup : ev 0 ≤ ev' 0 := hE.min_eig (ev' 0) (colv V' 0) hx' hrel'
  have hdown : ev' 0 ≤ ev 0 := by
    refine hE'.min_eig (ev 0) (colv V 0) hE.col0_ne_zero ?_
    rw [Matrix.smul_mulVec_assoc, Matrix.smul_mulVec_assoc, hE.1 0,
      smul_comm (d * d) (ev 0)]
  have hev : ev' 0 = ev 0 := le_antisymm hdown hup
  rw [hev] at hrel'
  -- expand column 0 of `V'` in the eigenbasis of the unscaled solver output
  have hc1 : ((Vᵀ * Msm) *ᵥ colv V' 0) 1 = 0 := by
    have h1 := hE.eig_coords (ev 0) (colv V' 0) hrel' 1
    by_contra hne
    exact absurd (mul_right_cancel₀ hne h1) (ne_of_gt hs)
  have hrepr := hE.repr (colv V' 0)
  have hexp : colv V' 0 = ((Vᵀ * Msm) *ᵥ colv V' 0) 0 • colv V 0 := by
    funext i
    have h2 := congrFun hrepr i
    rw [mulVec_fin2, hc1] at h2
    simp only [Pi.smul_apply, smul_eq_mul, colv]
    simp only [colv] at h2
    linear_combination -h2
  refine ⟨((Vᵀ * Msm) *ᵥ colv V' 0) 0, ?_, hexp⟩
  intro h0
  apply hx'
  rw [hexp, h0, zero_smul]

theorem rr_smallA_scale {K : Type*} [LinearOrderedField K] {n : ℕ}
    (A M P : Matrix (Fin n) (Fin n) K)
    (eigh : Matrix (Fin 2) (Fin 2) K → Matrix (Fin 2) (Fin 2) K →
      (Fin 2 → K) × Matrix (Fin 2) (Fin 2) K)
    (u0 u1 : Fin n → K) (k : ℕ) (d : K) (hd : d ≠ 0)
    (hdk : rrIter A M P eigh u1 k = d • rrIter A M P eigh u0 k) :
    rrAmat A M P eigh u1 k = (d * d) • rrAmat A M P eigh u0 k ∧
    rrMmat A M P eigh u1 k = (d * d) • rrMmat A M P eigh u0 k := by
  unfold rrAmat rrMmat rrW
  rw [hdk, passW_smul A M P (rrIter A M P eigh u0 k) d hd,
    smallOf_smul A _ _ d, smallOf_smul M _ _ d]
  exact ⟨rfl, rfl⟩

theorem rr_iter_scale {K : Type*} [LinearOrderedField K] {n : ℕ}
    (A M P : Matrix (Fin n) (Fin n) K)
    (eigh : Matrix (Fin 2) (Fin 2) K → Matrix (Fin 2) (Fin 2) K →
      (Fin 2 → K) × Matrix (Fin 2) (Fin 2) K)
    (u0 : Fin n → K) (c : K) (hc : c ≠ 0)
    (hE1 : ∀ k, IsEighResult (rrAmat A M P eigh u0 k) (rrMmat A M P eigh u0 k)
      (rrEv A M P eigh u0 k) (rrV A M P eigh u0 k))
    (hE2 : ∀ k, IsEighResult (rrAmat A M P eigh (c • u0) k)
      (rrMmat A M P eigh (c • u0) k)
      (rrEv A M P eigh (c • u0) k) (rrV A M P eigh (c • u0) k))
    (hs : ∀ k, rrEv A M P eigh u0 k 0 < rrEv A M P eigh u0 k 1) :
    ∀ k, ∃ d : K, d ≠ 0 ∧
      rrIter A M P eigh (c • u0) k = d • rrIter A M P eigh u0 k := by
  intro k
  induction k with
  | zero => exact ⟨c, hc, rfl⟩
  | succ k ih =>
    obtain ⟨d, hd, hdk⟩ := ih
    obtain ⟨hA2, hM2⟩ := rr_smallA_scale A M P eigh u0 (c • u0) k d hd hdk
    have h2 := hE2 k
    rw [hA2, hM2] at h2
    obtain ⟨t, ht, hcol⟩ := scaled_pencil_col0 hd (hE1 k) h2 (hs k)
    have hw2 : rrW A M P eigh (c • u0) k = d • rrW A M P eigh u0 k := by
      unfold rrW
      rw [hdk]
      exact passW_smul A M P (rrIter A M P eigh u0 k) d hd
    have h00 : colv (rrV A M P eigh (c • u0) k) 0 0 =
        t * colv (rrV A M P eigh u0 k) 0 0 := by
      have := congrFun hcol 0
      simpa using this
    have h10 : colv (rrV A M P eigh (c • u0) k) 0 1 =
        t * colv (rrV A M P eigh u0 k) 0 1 := by
      have := congrFun hcol 1
      simpa using this
    refine ⟨t * d, mul_ne_zero ht hd, ?_⟩
    rw [rr_iter_succ, rr_iter_succ, hdk, hw2, h00, h10, smul_add,
      smul_smul, smul_smul, smul_smul, smul_smul]
    congr 1 <;> [skip; skip] <;> ring_nf

theorem fin2_ne_zero {K : Type*} [LinearOrderedField K] (x : Fin 2 → K)
    (hx : x ≠ 0) : x 0 ≠ 0 ∨ x 1 ≠ 0 := by
  by_contra h
  push_neg at h
  exact hx (funext fun i => by fin_cases i <;> simp [h.1, h.2])

/-- Claim C3: on a pair `(u0, w)` for which the external eigensolver fulfils its
contract, the Rayleigh–Ritz `stepChoice` forms the matrices
`Ã = [[u·Au, u·Aw], [w·Au, w·Aw]]` and `M̃ = [[u·Mu, u·Mw], [w·Mu, w·Mw]]`
(here `smallOf Asc u0 w` and `smallOf Msc u0 w`) and returns the two components
of a generalized eigenvector of `Ã v = ω M̃ v` belonging to the smallest
eigenvalue `ω`: the returned pair, as a vector, is nonzero, satisfies the
pencil equation, and its eigenvalue is a lower bound for every eigenvalue of
the pencil. -/
theorem stepChoiceRR_min_eigvec {K : Type*} [LinearOrderedField K] {n : ℕ}
    (eigh : Matrix (Fin 2) (Fin 2) K → Matrix (Fin 2) (Fin 2) K →
      (Fin 2 → K) × Matrix (Fin 2) (Fin 2) K)
    (Asc Msc : Matrix (Fin n) (Fin n) K) (w u0 : Fin n → K)
    (hE : IsEighResult (smallOf Asc u0 w) (smallOf Msc u0 w)
      (eigh (smallOf Asc u0 w) (smallOf Msc u0 w)).1
      (eigh (smallOf Asc u0 w) (smallOf Msc u0 w)).2) :
    ∃ ω : K,
      (![(stepChoiceRR eigh Asc Msc w u0).1,
        (stepChoiceRR eigh Asc Msc w u0).2] : Fin 2 → K) ≠ 0 ∧
      smallOf Asc u0 w *ᵥ
          ![(stepChoiceRR eigh Asc Msc w u0).1, (stepChoiceRR eigh Asc Msc w u0).2] =
        ω • (smallOf Msc u0 w *ᵥ
          ![(stepChoiceRR eigh Asc Msc w u0).1, (stepChoiceRR eigh Asc Msc w u0).2]) ∧
      ∀ (μ : K) (y : Fin 2 → K), y ≠ 0 →
        smallOf Asc u0 w *ᵥ y = μ • (smallOf Msc u0 w *ᵥ y) → ω ≤ μ := by
  have hx : (![(stepChoiceRR eigh Asc Msc w u0).1,
      (stepChoiceRR eigh Asc Msc w u0).2] : Fin 2 → K) =
      colv (eigh (smallOf Asc u0 w) (smallOf Msc u0 w)).2 0 := by
    funext i
    fin_cases i <;> rfl
  refine ⟨(eigh (smallOf Asc u0 w) (smallOf Msc u0 w)).1 0, ?_, ?_, ?_⟩
  · rw [hx]
    exact hE.col0_ne_zero
  · rw [hx]
    exact hE.1 0
  · exact fun μ y hy hrel => hE.min_eig μ y hy hrel

/-- Witness for C3 at `u0 = (1,0)`, `w = (0,1)`, `Asc = [[1,0],[0,2]]`,
`Msc = 1`, with the eigensolver returning eigenvalues `(1,2)` and the identity
eigenvector matrix. -/
theorem stepChoiceRR_min_eigvec_witness :
    IsEighResult (smallOf (K := ℚ) !![1, 0; 0, 2] ![1, 0] ![0, 1])
      (smallOf (K := ℚ) 1 ![1, 0] ![0, 1]) ![1, 2] 1 ∧
    (∃ ω : ℚ,
      (![(stepChoiceRR (K := ℚ) (fun _ _ => (![1, 2], 1)) !![1, 0; 0, 2] 1 ![0, 1] ![1, 0]).1,
        (stepChoiceRR (K := ℚ) (fun _ _ => (![1, 2], 1)) !![1, 0; 0, 2] 1 ![0, 1] ![1, 0]).2] :
          Fin 2 → ℚ) ≠ 0 ∧
      smallOf (K := ℚ) !![1, 0; 0, 2] ![1, 0] ![0, 1] *ᵥ
          ![(stepChoiceRR (K := ℚ) (fun _ _ => (![1, 2], 1)) !![1, 0; 0, 2] 1 ![0, 1] ![1, 0]).1,
            (stepChoiceRR (K := ℚ) (fun _ _ => (![1, 2], 1)) !![1, 0; 0, 2] 1 ![0, 1] ![1, 0]).2] =
        ω • (smallOf (K := ℚ) 1 ![1, 0] ![0, 1] *ᵥ
          ![(stepChoiceRR (K := ℚ) (fun _ _ => (![1, 2], 1)) !![1, 0; 0, 2] 1 ![0, 1] ![1, 0]).1,
            (stepChoiceRR (K := ℚ) (fun _ _ => (![1, 2], 1)) !![1, 0; 0, 2] 1 ![0, 1] ![1, 0]).2]) ∧
      ∀ (μ : ℚ) (y : Fin 2 → ℚ), y ≠ 0 →
        smallOf (K := ℚ) !![1, 0; 0, 2] ![1, 0] ![0, 1] *ᵥ y =
          μ • (smallOf (K := ℚ) 1 ![1, 0] ![0, 1] *ᵥ y) → ω ≤ μ) := by
  have hA : smallOf (K := ℚ) !![1, 0; 0, 2] ![1, 0] ![0, 1] = !![1, 0; 0, 2] := by
    ext i j
    fin_cases i <;> fin_cases j <;>
      norm_num [smallOf, Matrix.mulVec, Matrix.dotProduct, Fin.sum_univ_two]
  have hM : smallOf (K := ℚ) 1 ![1, 0] ![0, 1] = 1 := by
    ext i j
    fin_cases i <;> fin_cases j <;>
      norm_num [smallOf, Matrix.mulVec, Matrix.dotProduct, Fin.sum_univ_two,
        Matrix.one_apply]
  have hE0 : IsEighResult (smallOf (K := ℚ) !![1, 0; 0, 2] ![1, 0] ![0, 1])
      (smallOf (K := ℚ) 1 ![1, 0] ![0, 1]) ![1, 2] 1 := by
    rw [hA, hM]
    refine ⟨?_, by norm_num, by simp⟩
    intro j
    fin_cases j <;>
      (funext i
       fin_cases i <;>
         norm_num [colv, Matrix.mulVec, Matrix.dotProduct, Fin.sum_univ_two,
           Matrix.one_apply])
  exact ⟨hE0,
    stepChoiceRR_min_eigvec (fun _ _ => (![1, 2], 1)) !![1, 0; 0, 2] 1 ![0, 1] ![1, 0] hE0⟩

/-- Claim C4: with the Rayleigh–Ritz selector, whenever `M` is positive
definite, the initial vector is nonzero, and the external eigensolver fulfils
its contract at every pass, the sequence of Rayleigh quotients is non-increasing
from each pass to the next after the first pass (`ρ_{k+1} ≤ ρ_k` for `k ≥ 1`),
in exact arithmetic. -/
theorem rr_rho_nonincreasing {K : Type*} [LinearOrderedField K] {n : ℕ}
    (A M P : Matrix (Fin n) (Fin n) K)
    (eigh : Matrix (Fin 2) (Fin 2) K → Matrix (Fin 2) (Fin 2) K →
      (Fin 2 → K) × Matrix (Fin 2) (Fin 2) K)
    (u0 : Fin n → K)
    (hMpos : ∀ x : Fin n → K, x ≠ 0 → 0 < x ⬝ᵥ M *ᵥ x)
    (hu0 : u0 ≠ 0)
    (hE : ∀ k, IsEighResult (rrAmat A M P eigh u0 k) (rrMmat A M P eigh u0 k)
      (rrEv A M P eigh u0 k) (rrV A M P eigh u0 k)) :
    ∀ k, 1 ≤ k →
      rhoSeq A M P (stepChoiceRR eigh) u0 (k + 1) ≤
        rhoSeq A M P (stepChoiceRR eigh) u0 k := by
  have hne : ∀ k, iterVec A M P (stepChoiceRR eigh) u0 k ≠ 0 := by
    intro k
    cases k with
    | zero => exact hu0
    | succ k =>
      rw [iterVec_succ]
      exact rr_step_nonzero A M P eigh _ _ rfl (hE k)
  intro k _
  have hden := hMpos _ (hne k)
  show passRho A M (iterVec A M P (stepChoiceRR eigh) u0 (k + 1)) ≤
    passRho A M (iterVec A M P (stepChoiceRR eigh) u0 k)
  rw [iterVec_succ]
  exact rr_step_rho_le A M P eigh _ _ rfl (hE k) hden

/-- Witness for C4 at `A = [[1,0],[0,2]]`, `M = 1`, `P = [[0,0],[1/2,0]]`,
`u0 = (1,0)`: the run is a fixed point (`u_k = (1,0)` for all `k`), the
eigensolver input is always the pencil `([[1,0],[0,2]], 1)`, and a constant
eigensolver returning eigenvalues `(1,2)` and the identity matrix fulfils the
contract at every pass. -/
theorem rr_rho_nonincreasing_witness :
    ((∀ x : Fin 2 → ℚ, x ≠ 0 → 0 < x ⬝ᵥ (1 : Matrix (Fin 2) (Fin 2) ℚ) *ᵥ x) ∧
      (![1, 0] : Fin 2 → ℚ) ≠ 0 ∧
      (∀ k, IsEighResult
        (rrAmat (K := ℚ) !![1, 0; 0, 2] 1 !![0, 0; 1/2, 0]
          (fun _ _ => (![1, 2], 1)) ![1, 0] k)
        (rrMmat (K := ℚ) !![1, 0; 0, 2] 1 !![0, 0; 1/2, 0]
          (fun _ _ => (![1, 2], 1)) ![1, 0] k)
        (rrEv (K := ℚ) !![1, 0; 0, 2] 1 !![0, 0; 1/2, 0]
          (fun _ _ => (![1, 2], 1)) ![1, 0] k)
        (rrV (K := ℚ) !![1, 0; 0, 2] 1 !![0, 0; 1/2, 0]
          (fun _ _ => (![1, 2], 1)) ![1, 0] k))) ∧
    (∀ k, 1 ≤ k →
      rhoSeq (K := ℚ) !![1, 0; 0, 2] 1 !![0, 0; 1/2, 0]
          (stepChoiceRR (fun _ _ => (![1, 2], 1))) ![1, 0] (k + 1) ≤
        rhoSeq (K := ℚ) !![1, 0; 0, 2] 1 !![0, 0; 1/2, 0]
          (stepChoiceRR (fun _ _ => (![1, 2], 1))) ![1, 0] k) := by
  have hMpos : ∀ x : Fin 2 → ℚ, x ≠ 0 → 0 < x ⬝ᵥ (1 : Matrix (Fin 2) (Fin 2) ℚ) *ᵥ x := by
    intro x hx
    rw [Matrix.one_mulVec, dotProduct_fin2]
    rcases fin2_ne_zero x hx with h | h
    · nlinarith [mul_self_nonneg (x 1), mul_self_pos.mpr h]
    · nlinarith [mul_self_nonneg (x 0), mul_self_pos.mpr h]
  have hfix : passNext (K := ℚ) !![1, 0; 0, 2] 1 !![0, 0; 1/2, 0]
      (stepChoiceRR (fun _ _ => (![1, 2], 1))) ![1, 0] = ![1, 0] := by
    simp [passNext, stepChoiceRR, Matrix.one_apply]
  have hiter : ∀ k, iterVec (K := ℚ) !![1, 0; 0, 2] 1 !![0, 0; 1/2, 0]
      (stepChoiceRR (fun _ _ => (![1, 2], 1))) ![1, 0] k = ![1, 0] :=
    iterVec_const _ _ _ _ _ hfix
  have hw : passW (K := ℚ) !![1, 0; 0, 2] 1 !![0, 0; 1/2, 0] ![1, 0] = ![0, 1] := by
    funext i
    fin_cases i <;>
      norm_num [passW, passRho, Matrix.mulVec, Matrix.dotProduct, Fin.sum_univ_two]
  have hA : smallOf (K := ℚ) !![1, 0; 0, 2] ![1, 0] ![0, 1] = !![1, 0; 0, 2] := by
    ext i j
    fin_cases i <;> fin_cases j <;>
      norm_num [smallOf, Matrix.mulVec, Matrix.dotProduct, Fin.sum_univ_two]
  have hM : smallOf (K := ℚ) 1 ![1, 0] ![0, 1] = 1 := by
    ext i j
    fin_cases i <;> fin_cases j <;>
      norm_num [smallOf, Matrix.mulVec, Matrix.dotProduct, Fin.sum_univ_two,
        Matrix.one_apply]
  have hcontract : IsEighResult (smallOf (K := ℚ) !![1, 0; 0, 2] ![1, 0] ![0, 1])
      (smallOf (K := ℚ) 1 ![1, 0] ![0, 1]) ![1, 2] 1 := by
    rw [hA, hM]
    refine ⟨?_, by norm_num, by simp⟩
    intro j
    fin_cases j <;>
      (funext i
       fin_cases i <;>
         norm_num [colv, Matrix.mulVec, Matrix.dotProduct, Fin.sum_univ_two,
           Matrix.one_apply])
  have hE : ∀ k, IsEighResult
      (rrAmat (K := ℚ) !![1, 0; 0, 2] 1 !![0, 0; 1/2, 0]
        (fun _ _ => (![1, 2], 1)) ![1, 0] k)
      (rrMmat (K := ℚ) !![1, 0; 0, 2] 1 !![0, 0; 1/2, 0]
        (fun _ _ => (![1, 2], 1)) ![1, 0] k)
      (rrEv (K := ℚ) !![1, 0; 0, 2] 1 !![0, 0; 1/2, 0]
        (fun _ _ => (![1, 2], 1)) ![1, 0] k)
      (rrV (K := ℚ) !![1, 0; 0, 2] 1 !![0, 0; 1/2, 0]
        (fun _ _ => (![1, 2], 1)) ![1, 0] k) := by
    intro k
    unfold rrAmat rrMmat rrEv rrV rrW rrIter
    rw [hiter k, hw]
    exact hcontract
  exact ⟨⟨hMpos, by decide, hE⟩,
    rr_rho_nonincreasing !![1, 0; 0, 2] 1 !![0, 0; 1/2, 0]
      (fun _ _ => (![1, 2], 1)) ![1, 0] hMpos (by decide) hE⟩

/-- Claim C8: replacing the initial vector `u0` by `c · u0` (`c ≠ 0`) leaves
the whole sequence of Rayleigh quotients unchanged, in exact arithmetic, for
both the constant-coefficient selector and the Rayleigh–Ritz selector (for the
latter, under the eigensolver contract along both runs and simplicity of the
smallest Ritz value, which pins the eigensolver's answer up to a nonzero
scalar). -/
theorem rho_seq_scale_invariant {K : Type*} [LinearOrderedField K] {n : ℕ}
    (A M P : Matrix (Fin n) (Fin n) K)
    (eigh : Matrix (Fin 2) (Fin 2) K → Matrix (Fin 2) (Fin 2) K →
      (Fin 2 → K) × Matrix (Fin 2) (Fin 2) K)
    (u0 : Fin n → K) (c : K) (hc : c ≠ 0)
    (hE1 : ∀ k, IsEighResult (rrAmat A M P eigh u0 k) (rrMmat A M P eigh u0 k)
      (rrEv A M P eigh u0 k) (rrV A M P eigh u0 k))
    (hE2 : ∀ k, IsEighResult (rrAmat A M P eigh (c • u0) k)
      (rrMmat A M P eigh (c • u0) k)
      (rrEv A M P eigh (c • u0) k) (rrV A M P eigh (c • u0) k))
    (hs : ∀ k, rrEv A M P eigh u0 k 0 < rrEv A M P eigh u0 k 1) :
    (∀ k, rhoSeq A M P stepChoiceConst (c • u0) k =
      rhoSeq A M P stepChoiceConst u0 k) ∧
    (∀ k, rhoSeq A M P (stepChoiceRR eigh) (c • u0) k =
      rhoSeq A M P (stepChoiceRR eigh) u0 k) := by
  constructor
  · have hconst : ∀ k, iterVec A M P stepChoiceConst (c • u0) k =
        c • iterVec A M P stepChoiceConst u0 k := by
      intro k
      induction k with
      | zero => rfl
      | succ k ih =>
        rw [iterVec_succ, ih, passNext_const_smul A M P _ c hc, iterVec_succ]
    intro k
    show passRho A M (iterVec A M P stepChoiceConst (c • u0) k) =
      passRho A M (iterVec A M P stepChoiceConst u0 k)
    rw [hconst k]
    exact passRho_smul A M _ c hc
  · intro k
    obtain ⟨d, hd, hdk⟩ := rr_iter_scale A M P eigh u0 c hc hE1 hE2 hs k
    show passRho A M (rrIter A M P eigh (c • u0) k) =
      passRho A M (rrIter A M P eigh u0 k)
    rw [hdk]
    exact passRho_smul A M _ d hd

/-- Witness for C8 at `A = [[1,0],[0,2]]`, `M = 1`, `P = [[0,0],[1/2,0]]`,
`u0 = (1,0)`, `c = 2`, with an eigensolver that fulfils its contract on both
pencils it is actually asked about (the base pencil `([[1,0],[0,2]], 1)` and
its scaling by 4). -/
theorem rho_seq_scale_invariant_witness :
    ((2 : ℚ) ≠ 0 ∧
      (∀ k, IsEighResult
        (rrAmat (K := ℚ) !![1, 0; 0, 2] 1 !![0, 0; 1/2, 0]
          (fun _Am Mm => if Mm 0 0 = 4 then (![1, 2], !![1/2, 0; 0, 1/2])
            else (![1, 2], 1)) ![1, 0] k)
        (rrMmat (K := ℚ) !![1, 0; 0, 2] 1 !![0, 0; 1/2, 0]
          (fun _Am Mm => if Mm 0 0 = 4 then (![1, 2], !![1/2, 0; 0, 1/2])
            else (![1, 2], 1)) ![1, 0] k)
        (rrEv (K := ℚ) !![1, 0; 0, 2] 1 !![0, 0; 1/2, 0]
          (fun _Am Mm => if Mm 0 0 = 4 then (![1, 2], !![1/2, 0; 0, 1/2])
            else (![1, 2], 1)) ![1, 0] k)
        (rrV (K := ℚ) !![1, 0; 0, 2] 1 !![0, 0; 1/2, 0]
          (fun _Am Mm => if Mm 0 0 = 4 then (![1, 2], !![1/2, 0; 0, 1/2])
            else (![1, 2], 1)) ![1, 0] k)) ∧
      (∀ k, IsEighResult
        (rrAmat (K := ℚ) !![1, 0; 0, 2] 1 !![0, 0; 1/2, 0]
          (fun _Am Mm => if Mm 0 0 = 4 then (![1, 2], !![1/2, 0; 0, 1/2])
            else (![1, 2], 1)) ((2 : ℚ) • ![1, 0]) k)
        (rrMmat (K := ℚ) !![1, 0; 0, 2] 1 !![0, 0; 1/2, 0]
          (fun _Am Mm => if Mm 0 0 = 4 then (![1, 2], !![1/2, 0; 0, 1/2])
            else (![1, 2], 1)) ((2 : ℚ) • ![1, 0]) k)
        (rrEv (K := ℚ) !![1, 0; 0, 2] 1 !![0, 0; 1/2, 0]
          (fun _Am Mm => if Mm 0 0 = 4 then (![1, 2], !![1/2, 0; 0, 1/2])
            else (![1, 2], 1)) ((2 : ℚ) • ![1, 0]) k)
        (rrV (K := ℚ) !![1, 0; 0, 2] 1 !![0, 0; 1/2, 0]
          (fun _Am Mm => if Mm 0 0 = 4 then (![1, 2], !![1/2, 0; 0, 1/2])
            else (![1, 2], 1)) ((2 : ℚ) • ![1, 0]) k)) ∧
      (∀ k, rrEv (K := ℚ) !![1, 0; 0, 2] 1 !![0, 0; 1/2, 0]
          (fun _Am Mm => if Mm 0 0 = 4 then (![1, 2], !![1/2, 0; 0, 1/2])
            else (![1, 2], 1)) ![1, 0] k 0 <
        rrEv (K := ℚ) !![1, 0; 0, 2] 1 !![0, 0; 1/2, 0]
          (fun _Am Mm => if Mm 0 0 = 4 then (![1, 2], !![1/2, 0; 0, 1/2])
            else (![1, 2], 1)) ![1, 0] k 1)) ∧
    ((∀ k, rhoSeq (K := ℚ) !![1, 0; 0, 2] 1 !![0, 0; 1/2, 0] stepChoiceConst
        ((2 : ℚ) • ![1, 0]) k =
      rhoSeq (K := ℚ) !![1, 0; 0, 2] 1 !![0, 0; 1/2, 0] stepChoiceConst ![1, 0] k) ∧
    (∀ k, rhoSeq (K := ℚ) !![1, 0; 0, 2] 1 !![0, 0; 1/2, 0]
        (stepChoiceRR (fun _Am Mm => if Mm 0 0 = 4 then (![1, 2], !![1/2, 0; 0, 1/2])
          else (![1, 2], 1))) ((2 : ℚ) • ![1, 0]) k =
      rhoSeq (K := ℚ) !![1, 0; 0, 2] 1 !![0, 0; 1/2, 0]
        (stepChoiceRR (fun _Am Mm => if Mm 0 0 = 4 then (![1, 2], !![1/2, 0; 0, 1/2])
          else (![1, 2], 1))) ![1, 0] k)) := by
  set egh : Matrix (Fin 2) (Fin 2) ℚ → Matrix (Fin 2) (Fin 2) ℚ →
      (Fin 2 → ℚ) × Matrix (Fin 2) (Fin 2) ℚ :=
    (fun _Am Mm => if Mm 0 0 = 4 then (![1, 2], !![1/2, 0; 0, 1/2])
      else (![1, 2], 1)) with hegh
  have he1 : egh !![1, 0; 0, 2] 1 = (![1, 2], 1) := by
    rw [hegh]
    norm_num [Matrix.one_apply]
  have he2 : egh !![4, 0; 0, 8] !![4, 0; 0, 4] = (![1, 2], !![1/2, 0; 0, 1/2]) := by
    rw [hegh]
    norm_num
  have h20 : ((2 : ℚ) • ![1, 0] : Fin 2 → ℚ) = ![2, 0] := by
    funext i
    fin_cases i <;> norm_num
  have hw1 : passW (K := ℚ) !![1, 0; 0, 2] 1 !![0, 0; 1/2, 0] ![1, 0] = ![0, 1] := by
    funext i
    fin_cases i <;>
      norm_num [passW, passRho, Matrix.mulVec, Matrix.dotProduct, Fin.sum_univ_two]
  have hw2 : passW (K := ℚ) !![1, 0; 0, 2] 1 !![0, 0; 1/2, 0] ![2, 0] = ![0, 2] := by
    funext i
    fin_cases i <;>
      norm_num [passW, passRho, Matrix.mulVec, Matrix.dotProduct, Fin.sum_univ_two]
  have hA1 : smallOf (K := ℚ) !![1, 0; 0, 2] ![1, 0] ![0, 1] = !![1, 0; 0, 2] := by
    ext i j
    fin_cases i <;> fin_cases j <;>
      norm_num [smallOf, Matrix.mulVec, Matrix.dotProduct, Fin.sum_univ_two]
  have hM1 : smallOf (K := ℚ) 1 ![1, 0] ![0, 1] = 1 := by
    ext i j
    fin_cases i <;> fin_cases j <;>
      norm_num [smallOf, Matrix.mulVec, Matrix.dotProduct, Fin.sum_univ_two,
        Matrix.one_apply]
  have hA2v : smallOf (K := ℚ) !![1, 0; 0, 2] ![2, 0] ![0, 2] = !![4, 0; 0, 8] := by
    ext i j
    fin_cases i <;> fin_cases j <;>
      norm_num [smallOf, Matrix.mulVec, Matrix.dotProduct, Fin.sum_univ_two]
  have hM2v : smallOf (K := ℚ) 1 ![2, 0] ![0, 2] = !![4, 0; 0, 4] := by
    ext i j
    fin_cases i <;> fin_cases j <;>
      norm_num [smallOf, Matrix.mulVec, Matrix.dotProduct, Fin.sum_univ_two,
        Matrix.one_apply]
  have hbase : IsEighResult (K := ℚ) !![1, 0; 0, 2] 1 ![1, 2] 1 := by
    refine ⟨?_, by norm_num, by simp⟩
    intro j
    fin_cases j <;>
      (funext i
       fin_cases i <;>
         norm_num [colv, Matrix.mulVec, Matrix.dotProduct, Fin.sum_univ_two,
           Matrix.one_apply])
  have hscaled : IsEighResult (K := ℚ) !![4, 0; 0, 8] !![4, 0; 0, 4] ![1, 2]
      !![1/2, 0; 0, 1/2] := by
    refine ⟨?_, by norm_num, ?_⟩
    · intro j
      fin_cases j <;>
        (funext i
         fin_cases i <;>
           norm_num [colv, Matrix.mulVec, Matrix.dotProduct, Fin.sum_univ_two])
    · ext i j
      fin_cases i <;> fin_cases j <;>
        norm_num [Matrix.mul_apply, Fin.sum_univ_two, Matrix.transpose_apply,
          Matrix.one_apply, Matrix.vecHead, Matrix.vecTail]
  have hfix1 : passNext (K := ℚ) !![1, 0; 0, 2] 1 !![0, 0; 1/2, 0]
      (stepChoiceRR egh) ![1, 0] = ![1, 0] := by
    rw [rr_passNext_eq _ _ _ egh ![1, 0] _ rfl, hw1, hA1, hM1, he1]
    funext i
    fin_cases i <;> norm_num [colv, Matrix.one_apply]
  have hiter1 : ∀ k, iterVec (K := ℚ) !![1, 0; 0, 2] 1 !![0, 0; 1/2, 0]
      (stepChoiceRR egh) ![1, 0] k = ![1, 0] :=
    iterVec_const _ _ _ _ _ hfix1
  have hstep0 : passNext (K := ℚ) !![1, 0; 0, 2] 1 !![0, 0; 1/2, 0]
      (stepChoiceRR egh) ((2 : ℚ) • ![1, 0]) = ![1, 0] := by
    rw [rr_passNext_eq _ _ _ egh ((2 : ℚ) • ![1, 0]) _ rfl, h20, hw2, hA2v, hM2v, he2]
    funext i
    fin_cases i <;> norm_num [colv]
  have hiter2 : ∀ k, iterVec (K := ℚ) !![1, 0; 0, 2] 1 !![0, 0; 1/2, 0]
      (stepChoiceRR egh) ((2 : ℚ) • ![1, 0]) (k + 1) = ![1, 0] := by
    intro k
    rw [iterVec_shift, hstep0]
    exact iterVec_const _ _ _ _ _ hfix1 k
  have hE1 : ∀ k, IsEighResult
      (rrAmat (K := ℚ) !![1, 0; 0, 2] 1 !![0, 0; 1/2, 0] egh ![1, 0] k)
      (rrMmat (K := ℚ) !![1, 0; 0, 2] 1 !![0, 0; 1/2, 0] egh ![1, 0] k)
      (rrEv (K := ℚ) !![1, 0; 0, 2] 1 !![0, 0; 1/2, 0] egh ![1, 0] k)
      (rrV (K := ℚ) !![1, 0; 0, 2] 1 !![0, 0; 1/2, 0] egh ![1, 0] k) := by
    intro k
    unfold rrEv rrV rrAmat rrMmat rrW rrIter
    rw [hiter1 k, hw1, hA1, hM1, he1]
    exact hbase
  have hE2 : ∀ k, IsEighResult
      (rrAmat (K := ℚ) !![1, 0; 0, 2] 1 !![0, 0; 1/2, 0] egh ((2 : ℚ) • ![1, 0]) k)
      (rrMmat (K := ℚ) !![1, 0; 0, 2] 1 !![0, 0; 1/2, 0] egh ((2 : ℚ) • ![1, 0]) k)
      (rrEv (K := ℚ) !![1, 0; 0, 2] 1 !![0, 0; 1/2, 0] egh ((2 : ℚ) • ![1, 0]) k)
      (rrV (K := ℚ) !![1, 0; 0, 2] 1 !![0, 0; 1/2, 0] egh ((2 : ℚ) • ![1, 0]) k) := by
    intro k
    cases k with
    | zero =>
      unfold rrEv rrV rrAmat rrMmat rrW rrIter
      rw [show iterVec (K := ℚ) !![1, 0; 0, 2] 1 !![0, 0; 1/2, 0]
        (stepChoiceRR egh) ((2 : ℚ) • ![1, 0]) 0 = ((2 : ℚ) • ![1, 0]) from rfl,
        h20, hw2, hA2v, hM2v, he2]
      exact hscaled
    | succ k =>
      unfold rrEv rrV rrAmat rrMmat rrW rrIter
      rw [hiter2 k, hw1, hA1, hM1, he1]
      exact hbase
  have hs : ∀ k, rrEv (K := ℚ) !![1, 0; 0, 2] 1 !![0, 0; 1/2, 0] egh ![1, 0] k 0 <
      rrEv (K := ℚ) !![1, 0; 0, 2] 1 !![0, 0; 1/2, 0] egh ![1, 0] k 1 := by
    intro k
    unfold rrEv rrAmat rrMmat rrW rrIter
    rw [hiter1 k, hw1, hA1, hM1, he1]
    norm_num
  exact ⟨⟨by norm_num, hE1, hE2, hs⟩,
    rho_seq_scale_invariant !![1, 0; 0, 2] 1 !![0, 0; 1/2, 0] egh ![1, 0] 2
      (by norm_num) hE1 hE2 hs⟩

end Claims
